import Mathlib

/-!
Shallow embedding of `contracts/rujira-ghost-vault/src/borrowers.rs`.

The contract keeps two `cw_storage_plus` maps:
  - `BORROWERS : Map<Addr, Borrower>` under the namespace "borrowers";
  - `DELEGATE_SHARES : Map<(Addr, Addr), Uint128>` under the namespace "delegates".
The migration routine reads a second map `Map<(Addr, Addr), OldDelegate>` that is
declared with the SAME namespace "delegates", so legacy records and migrated
`Uint128` counts live at the same storage keys; a slot holds one of the two
serialized forms.  We model a storage slot of the "delegates" namespace as a
`DelegSlot` (either a legacy record or a plain count), and reads that expect
the other form fail with a deserialization error, exactly as `from_json` does.

Addresses are modelled as naturals (the contract orders `Addr` keys by their
byte encoding; any linear order on identities supports the range queries).
`Uint128` amounts are modelled as `Nat`; composite keys of the "delegates"
namespace are ordered lexicographically, as `cw_storage_plus` orders the
encoding of an `(Addr, Addr)` key.

Each map is a key-sorted association list (`Store.WF`), which realizes the
ascending `range` iteration used by `Borrower::list` and `migrate`.
-/

abbrev Addr := Nat

abbrev DKey := Lex (Addr × Addr)

def dkey (b d : Addr) : DKey := toLex (b, d)

/-- Association-list lookup: the value stored at key `k`, if any. -/
def lookupA {κ α : Type} [DecidableEq κ] : List (κ × α) → κ → Option α
  | [], _ => none
  | (k', v') :: rest, k => if k = k' then some v' else lookupA rest k

/-- Sorted association-list upsert: replaces the binding of `k` if present,
otherwise inserts it at its ordered position. -/
def insertA {κ α : Type} [LinearOrder κ] : List (κ × α) → κ → α → List (κ × α)
  | [], k, v => [(k, v)]
  | (k', v') :: rest, k, v =>
    if k < k' then (k, v) :: (k', v') :: rest
    else if k = k' then (k, v) :: rest
    else (k', v') :: insertA rest k v

/-- Keys strictly ascending (hence duplicate-free). -/
abbrev sortedKeys {κ α : Type} [LinearOrder κ] (l : List (κ × α)) : Prop :=
  l.Pairwise (fun p q => p.1 < q.1)

structure Borrower where
  addr : Addr
  limit : Nat
  shares : Nat
deriving Repr, DecidableEq

/-- Legacy combined record: the migration input value type. -/
structure OldDelegate where
  borrower : Borrower
  addr : Addr
  shares : Nat
deriving Repr, DecidableEq

/-- One storage slot of the "delegates" namespace: either a legacy
`OldDelegate` record or a migrated plain share count (`Uint128`). -/
inductive DelegSlot where
  | legacy (d : OldDelegate)
  | cur (shares : Nat)
deriving Repr, DecidableEq

/-- `ContractError`, restricted to the variants reachable in `borrowers.rs`:
`Std(NotFound)` and `Std(ParseErr)` are the two `StdError` shapes that arise
(missing key, wrong serialized form), `overflow` is `checked_sub` underflow. -/
inductive ContractError where
  | unauthorizedBorrower
  | borrowLimitReached (limit : Nat)
  | notFound
  | parseErr
  | overflow
deriving Repr, DecidableEq

structure Store where
  borrowers : List (Addr × Borrower)
  delegates : List (DKey × DelegSlot)
deriving DecidableEq

def Store.empty : Store := ⟨[], []⟩

/-- Well-formed storage: both namespaces key-sorted, and every stored
borrower record carries the address it is keyed by. -/
abbrev Store.WF (s : Store) : Prop :=
  sortedKeys s.borrowers ∧ sortedKeys s.delegates ∧
    ∀ p ∈ s.borrowers, p.2.addr = p.1

namespace Borrower

/-- `Borrower::load`: `BORROWERS.load`, translating `NotFound` into
`UnauthorizedBorrower`. -/
def load (s : Store) (addr : Addr) : Except ContractError Borrower :=
  match lookupA s.borrowers addr with
  | some b => .ok b
  | none => .error .unauthorizedBorrower

/-- `Borrower::save`: unconditional upsert keyed by `self.addr`. -/
def save (s : Store) (b : Borrower) : Store :=
  { s with borrowers := insertA s.borrowers b.addr b }

/-- `Borrower::delegate_shares`: `DELEGATE_SHARES.load(...).unwrap_or_default()`;
a missing key and a legacy-format slot both fall back to zero. -/
def delegate_shares (s : Store) (b : Borrower) (delegate : Addr) : Nat :=
  match lookupA s.delegates (dkey b.addr delegate) with
  | some (.cur n) => n
  | _ => 0

/-- `Borrower::borrow`: fail with `BorrowLimitReached` when the pool ownership
of the projected shares exceeds the limit, else bump `shares` and save.
The pool valuation `SharePool::ownership` is the parameter `f`. -/
def borrow (f : Nat → Nat) (s : Store) (b : Borrower) (shares : Nat) :
    Except ContractError (Borrower × Store) :=
  if f (b.shares + shares) > b.limit then
    .error (.borrowLimitReached b.limit)
  else
    let b' : Borrower := { b with shares := b.shares + shares }
    .ok (b', save s b')

/-- `DELEGATE_SHARES.update(storage, k, |v| Ok(v.unwrap_or_default().add(shares)))`:
`may_load` (deserialization failure on a legacy slot), apply the closure to the
optional current value, save the result. -/
def delegUpdate (s : Store) (k : DKey) (shares : Nat) : Except ContractError Store :=
  match lookupA s.delegates k with
  | some (.legacy _) => .error .parseErr
  | some (.cur n) => .ok { s with delegates := insertA s.delegates k (.cur (n + shares)) }
  | none => .ok { s with delegates := insertA s.delegates k (.cur shares) }

/-- `Borrower::delegate_borrow`: increment the delegate entry (the `?` on
`update` is the first match), then `borrow`. -/
def delegate_borrow (f : Nat → Nat) (s : Store) (b : Borrower) (delegate : Addr)
    (shares : Nat) : Except ContractError (Borrower × Store) :=
  match delegUpdate s (dkey b.addr delegate) shares with
  | .error e => .error e
  | .ok s₁ => borrow f s₁ b shares

/-- `Borrower::repay`: `repaid = min(shares, self.shares)`, subtract, save,
return the residual `shares - repaid`. -/
def repay (s : Store) (b : Borrower) (shares : Nat) : Borrower × Store × Nat :=
  let repaid := min shares b.shares
  let b' : Borrower := { b with shares := b.shares - repaid }
  (b', save s b', shares - repaid)

/-- `Borrower::delegate_repay`: load the delegate entry (a plain `load`, so a
missing pair is a generic `NotFound`, not `UnauthorizedBorrower`), clamp the
repayment, store the checked difference, pass `repaid` to `repay`. -/
def delegate_repay (s : Store) (b : Borrower) (delegate : Addr) (shares : Nat) :
    Except ContractError (Borrower × Store × Nat) :=
  match lookupA s.delegates (dkey b.addr delegate) with
  | some (.legacy _) => .error .parseErr
  | none => .error .notFound
  | some (.cur deleg) =>
    let repaid := min shares deleg
    match (if repaid ≤ deleg then Except.ok (deleg - repaid)
      else Except.error ContractError.overflow : Except ContractError Nat) with
    | .error e => .error e
    | .ok newDeleg =>
      let s₁ : Store :=
        { s with delegates := insertA s.delegates (dkey b.addr delegate) (.cur newDeleg) }
      let r := repay s₁ b repaid
      .ok (r.1, r.2.1, shares - repaid)

/-- `Borrower::set`: load-or-default, overwrite only `limit`, save under the
given address. -/
def set (s : Store) (addr : Addr) (limit : Nat) : Store :=
  let b := (lookupA s.borrowers addr).getD { addr := addr, limit := 0, shares := 0 }
  { s with borrowers := insertA s.borrowers addr { b with limit := limit } }

/-- The exclusive lower bound `Bound::exclusive(start_after)` of the scan. -/
def afterCursor (c : Option Addr) (l : List (Addr × Borrower)) : List (Addr × Borrower) :=
  match c with
  | none => l
  | some k => l.filter (fun p => k < p.1)

/-- `Borrower::list`: ascending range from the exclusive cursor, truncated to
`limit.unwrap_or(100)` (the requested limit is a `u8`; no further cap). -/
def list (s : Store) (limit : Option Nat) (start_after : Option Addr) : List Borrower :=
  ((afterCursor start_after s.borrowers).take (limit.getD 100)).map (fun p => p.2)

end Borrower

/-- `old.range(...).collect::<StdResult<Vec<_>>>()`: deserialize every slot of
the "delegates" namespace as `OldDelegate`; the first slot already holding a
migrated plain count aborts with a deserialization error. -/
def readLegacy : List (DKey × DelegSlot) → Except ContractError (List (DKey × OldDelegate))
  | [] => .ok []
  | (k, .legacy d) :: rest =>
    match readLegacy rest with
    | .ok l => .ok ((k, d) :: l)
    | .error e => .error e
  | (_, .cur _) :: _ => .error .parseErr

/-- First migration loop, write half: store each legacy pair's share count
verbatim into `DELEGATE_SHARES` (same namespace, so this overwrites the
legacy record in place). -/
def foldIns : List (DKey × OldDelegate) → List (DKey × DelegSlot) → List (DKey × DelegSlot)
  | [], l => l
  | p :: rest, l => foldIns rest (insertA l p.1 (.cur p.2.shares))

def writeDelegates (old : List (DKey × OldDelegate)) (s : Store) : Store :=
  { s with delegates := foldIns old s.delegates }

/-- `delegate_shares_by_borrower.entry(b).and_modify(|t| *t += sh).or_insert(sh)`. -/
def addTotal : List (Addr × Nat) → Addr → Nat → List (Addr × Nat)
  | [], a, n => [(a, n)]
  | (a', t) :: rest, a, n =>
    if a' = a then (a', t + n) :: rest else (a', t) :: addTotal rest a n

/-- First migration loop, accumulation half: per-borrower running totals of the
legacy delegate shares (the borrower identity is the first key component). -/
def foldTotals : List (DKey × OldDelegate) → List (Addr × Nat) → List (Addr × Nat)
  | [], m => m
  | p :: rest, m => foldTotals rest (addTotal m (ofLex p.1).1 p.2.shares)

def migrateTotals (old : List (DKey × OldDelegate)) : List (Addr × Nat) :=
  foldTotals old []

/-- Second migration loop: for each accumulated borrower, `BORROWERS.load`
(plain `StdResult`, so absence is a generic `NotFound`), overwrite `shares`
with the total, save.  The `HashMap` iteration order is arbitrary; the writes
touch pairwise distinct keys, so insertion order is one admissible order. -/
def applyTotals : List (Addr × Nat) → Store → Except ContractError Store
  | [], s => .ok s
  | (a, tot) :: rest, s =>
    match lookupA s.borrowers a with
    | none => .error .notFound
    | some b => applyTotals rest (Borrower.save s { b with shares := tot })

/-- `migrate`: read the whole legacy table, rewrite each entry as a plain
count while accumulating per-borrower totals, then overwrite each referenced
borrower's `shares`. -/
def migrate (s : Store) : Except ContractError Store :=
  match readLegacy s.delegates with
  | .error e => .error e
  | .ok old => applyTotals (migrateTotals old) (writeDelegates old s)

/-- Modelled from the spec: §5 ambient transactionality.  The transaction
boundary around each external call is supplied by the host (wasmd), not by
`borrowers.rs`: every write of a call is rolled back when the call returns an
error, and committed only on success.  `runTx` wraps one external call: on
`ok` the new store stands, on `error` the pre-call store stands. -/
def runTx {α : Type} (s : Store) :
    Except ContractError (α × Store) → Except ContractError α × Store
  | .ok (a, s') => (.ok a, s')
  | .error e => (.error e, s)

/-- External `set` call (infallible: a load-or-default and a save). -/
def execSet (s : Store) (addr : Addr) (limit : Nat) : Store :=
  Borrower.set s addr limit

/-- External `borrow` call: load the borrower, then `Borrower::borrow`. -/
def execBorrow (f : Nat → Nat) (s : Store) (addr : Addr) (shares : Nat) :
    Except ContractError Unit × Store :=
  runTx s
    (match Borrower.load s addr with
     | .error e => .error e
     | .ok b =>
       match Borrower.borrow f s b shares with
       | .error e => .error e
       | .ok r => .ok ((), r.2))

/-- External `repay` call: load the borrower, then `Borrower::repay`;
returns the residual. -/
def execRepay (s : Store) (addr : Addr) (shares : Nat) :
    Except ContractError Nat × Store :=
  runTx s
    (match Borrower.load s addr with
     | .error e => .error e
     | .ok b =>
       let r := Borrower.repay s b shares
       .ok (r.2.2, r.2.1))

/-- External `delegateBorrow` call. -/
def execDelegateBorrow (f : Nat → Nat) (s : Store) (addr delegate : Addr)
    (shares : Nat) : Except ContractError Unit × Store :=
  runTx s
    (match Borrower.load s addr with
     | .error e => .error e
     | .ok b =>
       match Borrower.delegate_borrow f s b delegate shares with
       | .error e => .error e
       | .ok r => .ok ((), r.2))

/-- External `delegateRepay` call; returns the residual. -/
def execDelegateRepay (s : Store) (addr delegate : Addr) (shares : Nat) :
    Except ContractError Nat × Store :=
  runTx s
    (match Borrower.load s addr with
     | .error e => .error e
     | .ok b =>
       match Borrower.delegate_repay s b delegate shares with
       | .error e => .error e
       | .ok r => .ok (r.2.2, r.2.1))

/-- External `migrate` call. -/
def execMigrate (s : Store) : Except ContractError Unit × Store :=
  runTx s
    (match migrate s with
     | .error e => .error e
     | .ok s' => .ok ((), s'))

/-- One external call of the public surface, with the pool valuation `f`
fixed across the run. -/
inductive Step (f : Nat → Nat) : Store → Store → Prop where
  | set (s : Store) (addr : Addr) (limit : Nat) : Step f s (execSet s addr limit)
  | borrow (s : Store) (addr shares : Nat) : Step f s (execBorrow f s addr shares).2
  | repay (s : Store) (addr shares : Nat) : Step f s (execRepay s addr shares).2
  | delegateBorrow (s : Store) (addr delegate shares : Nat) :
      Step f s (execDelegateBorrow f s addr delegate shares).2
  | delegateRepay (s : Store) (addr delegate shares : Nat) :
      Step f s (execDelegateRepay s addr delegate shares).2
  | migration (s : Store) : Step f s (execMigrate s).2

/-- States reachable from genesis by external calls. -/
inductive Reachable (f : Nat → Nat) : Store → Prop where
  | empty : Reachable f Store.empty
  | step {s s' : Store} : Reachable f s → Step f s s' → Reachable f s'

/-- One external call, direct `repay` excluded (the sequences under which the
per-pair delegate bound is preserved). -/
inductive StepND (f : Nat → Nat) : Store → Store → Prop where
  | set (s : Store) (addr : Addr) (limit : Nat) : StepND f s (execSet s addr limit)
  | borrow (s : Store) (addr shares : Nat) : StepND f s (execBorrow f s addr shares).2
  | delegateBorrow (s : Store) (addr delegate shares : Nat) :
      StepND f s (execDelegateBorrow f s addr delegate shares).2
  | delegateRepay (s : Store) (addr delegate shares : Nat) :
      StepND f s (execDelegateRepay s addr delegate shares).2
  | migration (s : Store) : StepND f s (execMigrate s).2

/-- States reachable from genesis without direct `repay` calls. -/
inductive ReachableND (f : Nat → Nat) : Store → Prop where
  | empty : ReachableND f Store.empty
  | step {s s' : Store} : ReachableND f s → StepND f s s' → ReachableND f s'

/-- The share count a slot contributes when read as a migrated entry. -/
def slotVal : DelegSlot → Nat
  | .cur n => n
  | .legacy _ => 0

def optSlot : Option DelegSlot → Nat
  | some sl => slotVal sl
  | none => 0

/-- Sum of the migrated delegate entries attributed to borrower `a`. -/
def delegSum (l : List (DKey × DelegSlot)) (a : Addr) : Nat :=
  l.foldr (fun p acc => if (ofLex p.1).1 = a then slotVal p.2 + acc else acc) 0

/-- The aggregate share count stored for identity `a` (zero when absent). -/
def sharesOf (s : Store) (a : Addr) : Nat :=
  match lookupA s.borrowers a with
  | some b => b.shares
  | none => 0

/-- The delegate-ledger count for the pair `(b, d)`, read back the way
`delegate_shares` reads it. -/
def delegVal (s : Store) (b d : Addr) : Nat :=
  match lookupA s.delegates (dkey b d) with
  | some (.cur n) => n
  | _ => 0

/-- No slot of the "delegates" namespace still holds a legacy record. -/
abbrev NoLegacy (s : Store) : Prop :=
  ∀ p ∈ s.delegates, ∀ d, p.2 ≠ DelegSlot.legacy d

/-- Inductive invariant of the no-direct-repay system: well-formed storage,
no legacy slots, and per-borrower delegate totals bounded by the aggregate. -/
abbrev DInv (s : Store) : Prop :=
  s.WF ∧ NoLegacy s ∧ ∀ a, delegSum s.delegates a ≤ sharesOf s a

/-- Sum of the LEGACY delegate entries attributed to borrower `a`. -/
def legacyTotal (l : List (DKey × DelegSlot)) (a : Addr) : Nat :=
  l.foldr
    (fun p acc =>
      match p.2 with
      | .legacy d => if (ofLex p.1).1 = a then d.shares + acc else acc
      | .cur _ => acc)
    0

/-- Sum of the collected legacy records attributed to borrower `a`. -/
def oldTotal (old : List (DKey × OldDelegate)) (a : Addr) : Nat :=
  old.foldr (fun p acc => if (ofLex p.1).1 = a then p.2.shares + acc else acc) 0

/-- Does borrower `a` appear in at least one collected legacy record? -/
def hasA (old : List (DKey × OldDelegate)) (a : Addr) : Bool :=
  old.any (fun p => (ofLex p.1).1 == a)

/-- Does borrower `a` appear in at least one legacy slot of the store? -/
def refed (l : List (DKey × DelegSlot)) (a : Addr) : Bool :=
  l.any (fun p =>
    ((ofLex p.1).1 == a) &&
      match p.2 with
      | .legacy _ => true
      | .cur _ => false)

/-- Chained pagination: list a page, then continue from the last returned
identity, until a page comes back empty or the fuel runs out. -/
def pages (s : Store) (lim : Nat) : Option Addr → Nat → List Borrower
  | _, 0 => []
  | c, fuel + 1 =>
    let page := Borrower.list s (some lim) c
    match page.getLast? with
    | none => []
    | some b => page ++ pages s lim (some b.addr) fuel

/-! ### Concrete stores for witnesses and counterexamples -/

def exB : Borrower := ⟨1, 1000, 500⟩

def exStore : Store := ⟨[(1, exB)], []⟩

def migB : Borrower := ⟨1, 1000, 999⟩

/-- A pre-migration store: two legacy delegate records for borrower 1, a
stale aggregate of 999, and an unreferenced borrower 5. -/
def migStore : Store :=
  ⟨[(1, migB), (5, ⟨5, 50, 7⟩)],
   [(dkey 1 2, .legacy ⟨migB, 2, 300⟩), (dkey 1 3, .legacy ⟨migB, 3, 200⟩)]⟩

/-- The store `migStore` reaches after one successful migration. -/
def migStore1 : Store :=
  ⟨[(1, ⟨1, 1000, 500⟩), (5, ⟨5, 50, 7⟩)],
   [(dkey 1 2, .cur 300), (dkey 1 3, .cur 200)]⟩

/-- 101 borrowers, to exercise the page limit. -/
def bigStore : Store := ⟨(List.range 101).map (fun i => (i, ⟨i, 0, 0⟩)), []⟩

/-! ### Association-list lemmas -/

theorem lookupA_mem {κ α : Type} [DecidableEq κ] {l : List (κ × α)} {k : κ} {v : α}
    (h : lookupA l k = some v) : (k, v) ∈ l := by
  induction l with
  | nil => simp [lookupA] at h
  | cons p rest ih =>
    obtain ⟨k₀, v₀⟩ := p
    by_cases hk : k = k₀
    · subst hk
      have hv : v₀ = v := by simpa [lookupA] using h
      subst hv
      exact List.mem_cons_self _ _
    · simp only [lookupA, if_neg hk] at h
      exact List.mem_cons_of_mem _ (ih h)

theorem lookupA_eq_none_iff {κ α : Type} [DecidableEq κ] {l : List (κ × α)} {k : κ} :
    lookupA l k = none ↔ k ∉ l.map Prod.fst := by
  induction l with
  | nil => simp [lookupA]
  | cons p rest ih =>
    obtain ⟨k₀, v₀⟩ := p
    by_cases hk : k = k₀
    · subst hk; simp [lookupA]
    · simp [lookupA, hk, ih, Ne.symm hk]

theorem lookupA_insertA {κ α : Type} [LinearOrder κ] (l : List (κ × α)) (k k' : κ) (v : α) :
    lookupA (insertA l k v) k' = if k' = k then some v else lookupA l k' := by
  induction l with
  | nil => simp [insertA, lookupA]
  | cons p rest ih =>
    obtain ⟨k₀, v₀⟩ := p
    by_cases h1 : k < k₀
    · by_cases h2 : k' = k <;> simp [insertA, if_pos h1, lookupA, h2]
    · by_cases h2 : k = k₀
      · subst h2
        by_cases h3 : k' = k <;> simp [insertA, if_neg h1, lookupA, h3]
      · by_cases h3 : k' = k₀
        · subst h3
          have : k' ≠ k := fun h => h2 h.symm
          simp [insertA, if_neg h1, if_neg h2, lookupA, this]
        · simp [insertA, if_neg h1, if_neg h2, lookupA, h3, ih]

theorem mem_insertA {κ α : Type} [LinearOrder κ] {l : List (κ × α)} {k : κ} {v : α}
    {p : κ × α} (h : p ∈ insertA l k v) : p = (k, v) ∨ p ∈ l := by
  induction l with
  | nil => simpa [insertA] using h
  | cons q rest ih =>
    obtain ⟨k₀, v₀⟩ := q
    by_cases h1 : k < k₀
    · simp only [insertA, if_pos h1, List.mem_cons] at h
      rcases h with h | h | h
      · exact Or.inl h
      · exact Or.inr (by simp [h])
      · exact Or.inr (List.mem_cons_of_mem _ h)
    · by_cases h2 : k = k₀
      · simp only [insertA, if_neg h1, if_pos h2, List.mem_cons] at h
        rcases h with h | h
        · exact Or.inl h
        · exact Or.inr (List.mem_cons_of_mem _ h)
      · simp only [insertA, if_neg h1, if_neg h2, List.mem_cons] at h
        rcases h with h | h
        · exact Or.inr (by simp [h])
        · rcases ih h with h' | h'
          · exact Or.inl h'
          · exact Or.inr (List.mem_cons_of_mem _ h')

theorem sortedKeys_insertA {κ α : Type} [LinearOrder κ] {l : List (κ × α)} {k : κ} {v : α}
    (h : sortedKeys l) : sortedKeys (insertA l k v) := by
  induction l with
  | nil => simp [insertA, sortedKeys]
  | cons p rest ih =>
    obtain ⟨k₀, v₀⟩ := p
    rcases List.pairwise_cons.mp h with ⟨hhead, htail⟩
    by_cases h1 : k < k₀
    · simp only [insertA, if_pos h1]
      refine List.pairwise_cons.mpr ⟨?_, h⟩
      intro q hq
      rcases List.mem_cons.mp hq with hq | hq
      · rw [hq]; exact h1
      · exact lt_trans h1 (hhead q hq)
    · by_cases h2 : k = k₀
      · subst h2
        simp only [insertA, if_neg h1, if_pos rfl]
        exact List.pairwise_cons.mpr ⟨hhead, htail⟩
      · have hgt : k₀ < k := by
          rcases lt_trichotomy k k₀ with h' | h' | h'
          · exact absurd h' h1
          · exact absurd h' h2
          · exact h'
        simp only [insertA, if_neg h1, if_neg h2]
        refine List.pairwise_cons.mpr ⟨?_, ih htail⟩
        intro q hq
        rcases mem_insertA hq with h' | h'
        · rw [h']; exact hgt
        · exact hhead q h'

/-! ### Transaction-wrapper lemmas -/

theorem runTx_error {α : Type} {s : Store} {x : Except ContractError (α × Store)}
    {e : ContractError} (h : (runTx s x).1 = .error e) : (runTx s x).2 = s := by
  cases x with
  | ok p =>
    obtain ⟨a, st⟩ := p
    simp [runTx] at h
  | error e' => rfl

/-! ### C1: borrow -/

/-- C1: for every borrower record `b` and amount `sh`, `borrow` succeeds iff
`ownership(current.shares + sh) ≤ limit`; on success the shares increase by
exactly `sh` and the record is persisted; on failure it fails with
`BorrowLimitReached{limit}` and the stored state is bit-identical to before
the call. -/
theorem borrow_correct (f : Nat → Nat) (s : Store) (b : Borrower) (sh : Nat) :
    ((∃ r, Borrower.borrow f s b sh = .ok r) ↔ f (b.shares + sh) ≤ b.limit) ∧
    (∀ b' s', Borrower.borrow f s b sh = .ok (b', s') →
      b'.shares = b.shares + sh ∧ b'.addr = b.addr ∧ b'.limit = b.limit ∧
      lookupA s'.borrowers b.addr = some b' ∧ s'.delegates = s.delegates) ∧
    (b.limit < f (b.shares + sh) →
      Borrower.borrow f s b sh = .error (.borrowLimitReached b.limit)) ∧
    (∀ a e, (execBorrow f s a sh).1 = .error e → (execBorrow f s a sh).2 = s) := by
  refine ⟨⟨?_, ?_⟩, ?_, ?_, ?_⟩
  · rintro ⟨r, hr⟩
    by_cases h : f (b.shares + sh) > b.limit
    · simp [Borrower.borrow, h] at hr
    · omega
  · intro h
    have h' : ¬ f (b.shares + sh) > b.limit := by omega
    exact ⟨({ b with shares := b.shares + sh },
      Borrower.save s { b with shares := b.shares + sh }), by simp [Borrower.borrow, h']⟩
  · intro b' s' h
    by_cases hc : f (b.shares + sh) > b.limit
    · simp [Borrower.borrow, hc] at h
    · simp [Borrower.borrow, hc] at h
      obtain ⟨hb, hs⟩ := h
      subst hb
      subst hs
      refine ⟨rfl, rfl, rfl, ?_, rfl⟩
      simp [Borrower.save, lookupA_insertA]
  · intro h
    simp [Borrower.borrow, show f (b.shares + sh) > b.limit from h]
  · intro a e h
    simp only [execBorrow] at h ⊢
    exact runTx_error h

theorem borrow_correct_witness :
    (⟨1, 1000, 600⟩ : Borrower).shares = exB.shares + 100 ∧
    (⟨1, 1000, 600⟩ : Borrower).addr = exB.addr ∧
    (⟨1, 1000, 600⟩ : Borrower).limit = exB.limit ∧
    lookupA (⟨[(1, ⟨1, 1000, 600⟩)], []⟩ : Store).borrowers exB.addr = some ⟨1, 1000, 600⟩ ∧
    (⟨[(1, ⟨1, 1000, 600⟩)], []⟩ : Store).delegates = exStore.delegates :=
  (borrow_correct id exStore exB 100).2.1 ⟨1, 1000, 600⟩ ⟨[(1, ⟨1, 1000, 600⟩)], []⟩ (by rfl)

/-! ### C9: repay -/

/-- C9: for every existing borrower record and requested amount `sh`,
`repay` sets `repaid = min(sh, shares_before)`, decreases the stored shares
by exactly `repaid` (so they never go negative), persists the record, and
returns the residual `sh - repaid = max(0, sh - shares_before)`
uninterpreted. -/
theorem repay_correct (s : Store) (a : Addr) (b : Borrower) (sh : Nat)
    (hWF : s.WF) (hb : lookupA s.borrowers a = some b) :
    (execRepay s a sh).1 = .ok (sh - min sh b.shares) ∧
    (execRepay s a sh).2.borrowers
      = insertA s.borrowers a { b with shares := b.shares - min sh b.shares } ∧
    (execRepay s a sh).2.delegates = s.delegates ∧
    lookupA (execRepay s a sh).2.borrowers a
      = some { b with shares := b.shares - min sh b.shares } ∧
    min sh b.shares ≤ b.shares ∧
    (b.shares - min sh b.shares) + min sh b.shares = b.shares ∧
    sh - min sh b.shares = sh - b.shares := by
  have haddr : b.addr = a := hWF.2.2 (a, b) (lookupA_mem hb)
  have h1 : Borrower.load s a = .ok b := by simp [Borrower.load, hb]
  refine ⟨?_, ?_, ?_, ?_, min_le_right _ _, by omega, by omega⟩
  · simp [execRepay, h1, Borrower.repay, runTx]
  · simp [execRepay, h1, Borrower.repay, runTx, Borrower.save, haddr]
  · simp [execRepay, h1, Borrower.repay, runTx, Borrower.save]
  · simp [execRepay, h1, Borrower.repay, runTx, Borrower.save, haddr, lookupA_insertA]

theorem repay_correct_witness :
    (execRepay exStore 1 700).1 = .ok (700 - min 700 exB.shares) ∧
    (execRepay exStore 1 700).2.borrowers
      = insertA exStore.borrowers 1 { exB with shares := exB.shares - min 700 exB.shares } ∧
    (execRepay exStore 1 700).2.delegates = exStore.delegates ∧
    lookupA (execRepay exStore 1 700).2.borrowers 1
      = some { exB with shares := exB.shares - min 700 exB.shares } ∧
    min 700 exB.shares ≤ exB.shares ∧
    (exB.shares - min 700 exB.shares) + min 700 exB.shares = exB.shares ∧
    700 - min 700 exB.shares = 700 - exB.shares :=
  repay_correct exStore 1 exB 700 (by decide) (by rfl)

/-! ### C2: the limit invariant over all operations -/

/-- C2 counterexample: the state reached by `set(1, 1000)`, `borrow(1, 500)`,
`set(1, 100)` (with `ownership = id`) is reachable through public operations,
yet stores borrower 1 with `ownership(shares) = 500 > 100 = limit`: the
claimed reachable-state invariant `ownership(shares) ≤ limit` is false. -/
theorem limit_invariant_cex :
    Reachable id (execSet (execBorrow id (execSet Store.empty 1 1000) 1 500).2 1 100) ∧
    lookupA (execSet (execBorrow id (execSet Store.empty 1 1000) 1 500).2 1 100).borrowers 1
      = some ⟨1, 100, 500⟩ ∧
    ¬ (id (500 : Nat) ≤ 100) := by
  refine ⟨?_, by rfl, by decide⟩
  exact Reachable.step
    (Reachable.step (Reachable.step Reachable.empty (Step.set Store.empty 1 1000))
      (Step.borrow _ 1 500))
    (Step.set _ 1 100)

/-- C2 (amended): immediately after any successful `borrow` or
`delegate_borrow`, the affected borrower is stored with
`ownership(shares) ≤ limit`; the bound is enforced by these two operations
only — `set` can lower a limit below the current usage (and `migrate`
rebuilds `shares` without consulting the limit), so it is not an invariant
of every reachable state. -/
theorem limit_after_borrow (f : Nat → Nat) (s : Store) (b : Borrower) (d : Addr) (sh : Nat) :
    (∀ b' s', Borrower.borrow f s b sh = .ok (b', s') →
      f b'.shares ≤ b'.limit ∧ lookupA s'.borrowers b'.addr = some b') ∧
    (∀ b' s', Borrower.delegate_borrow f s b d sh = .ok (b', s') →
      f b'.shares ≤ b'.limit ∧ lookupA s'.borrowers b'.addr = some b') := by
  have core : ∀ (s₀ : Store) (b' : Borrower) (s' : Store),
      Borrower.borrow f s₀ b sh = .ok (b', s') →
      f b'.shares ≤ b'.limit ∧ lookupA s'.borrowers b'.addr = some b' := by
    intro s₀ b' s' h
    by_cases hc : f (b.shares + sh) > b.limit
    · simp [Borrower.borrow, hc] at h
    · simp [Borrower.borrow, hc] at h
      obtain ⟨hb, hs⟩ := h
      subst hb
      subst hs
      exact ⟨by simpa using Nat.le_of_not_lt hc, by simp [Borrower.save, lookupA_insertA]⟩
  refine ⟨core s, ?_⟩
  intro b' s' h
  cases hdu : Borrower.delegUpdate s (dkey b.addr d) sh with
  | error e => simp [Borrower.delegate_borrow, hdu] at h
  | ok s₁ =>
    simp only [Borrower.delegate_borrow, hdu] at h
    exact core s₁ b' s' h

theorem limit_after_borrow_witness :
    (id (⟨1, 1000, 600⟩ : Borrower).shares ≤ (⟨1, 1000, 600⟩ : Borrower).limit ∧
      lookupA (⟨[(1, ⟨1, 1000, 600⟩)], [(dkey 1 2, .cur 100)]⟩ : Store).borrowers
        (⟨1, 1000, 600⟩ : Borrower).addr = some ⟨1, 1000, 600⟩) :=
  (limit_after_borrow id exStore exB 2 100).2 ⟨1, 1000, 600⟩
    ⟨[(1, ⟨1, 1000, 600⟩)], [(dkey 1 2, .cur 100)]⟩ (by rfl)

/-! ### C4: failed delegateBorrow retains no partial state -/

/-- C4: whenever `delegateBorrow` returns an error, the store after the call
equals the store before it — the delegate-table increment written before the
limit check is rolled back together with the failure.  The rollback itself is
the host's call-level transactionality (spec §5, modelled by `runTx`); the
second conjunct shows the increment really was pending before the rollback:
whenever the delegate-table update succeeded, the intermediate store held the
entry incremented by `sh`. -/
theorem delegate_borrow_rollback (f : Nat → Nat) (s : Store) (a d : Addr) (sh : Nat) :
    (∀ e, (execDelegateBorrow f s a d sh).1 = .error e →
      (execDelegateBorrow f s a d sh).2 = s) ∧
    (∀ s₁, Borrower.delegUpdate s (dkey a d) sh = .ok s₁ →
      delegVal s₁ a d = delegVal s a d + sh) := by
  constructor
  · intro e h
    simp only [execDelegateBorrow] at h ⊢
    exact runTx_error h
  · intro s₁ h
    cases hlk : lookupA s.delegates (dkey a d) with
    | none =>
      simp only [Borrower.delegUpdate, hlk, Except.ok.injEq] at h
      subst h
      simp [delegVal, hlk, lookupA_insertA]
    | some sl =>
      cases sl with
      | legacy od => simp [Borrower.delegUpdate, hlk] at h
      | cur n =>
        simp only [Borrower.delegUpdate, hlk, Except.ok.injEq] at h
        subst h
        simp [delegVal, hlk, lookupA_insertA]

theorem delegate_borrow_rollback_witness :
    (execDelegateBorrow id exStore 1 2 600).2 = exStore ∧
    delegVal (⟨exStore.borrowers, [(dkey 1 2, .cur 600)]⟩ : Store) 1 2
      = delegVal exStore 1 2 + 600 :=
  ⟨(delegate_borrow_rollback id exStore 1 2 600).1 (.borrowLimitReached 1000) (by rfl),
   (delegate_borrow_rollback id exStore 1 2 600).2
     ⟨exStore.borrowers, [(dkey 1 2, .cur 600)]⟩ (by rfl)⟩

/-! ### C7: delegateBorrow/delegateRepay round-trip -/

/-- C7: whenever `delegateBorrow(b, d, sh)` succeeds, an immediate
`delegateRepay(b, d, sh)` succeeds with residual 0 and restores both the
`(b, d)` delegate entry and the borrower's aggregate shares to their
pre-call values. -/
theorem delegate_roundtrip (f : Nat → Nat) (s s₁ : Store) (a d : Addr) (sh : Nat)
    (hWF : s.WF) (h : execDelegateBorrow f s a d sh = (.ok (), s₁)) :
    (execDelegateRepay s₁ a d sh).1 = .ok 0 ∧
    delegVal (execDelegateRepay s₁ a d sh).2 a d = delegVal s a d ∧
    sharesOf (execDelegateRepay s₁ a d sh).2 a = sharesOf s a := by
  cases hlb : lookupA s.borrowers a with
  | none => simp [execDelegateBorrow, Borrower.load, hlb, runTx] at h
  | some b =>
  have haddr : b.addr = a := hWF.2.2 (a, b) (lookupA_mem hlb)
  subst haddr
  cases hdb : Borrower.delegate_borrow f s b d sh with
  | error e => simp [execDelegateBorrow, Borrower.load, hlb, hdb, runTx] at h
  | ok r =>
  obtain ⟨b', s'⟩ := r
  have hs₁ : s' = s₁ := by
    simpa [execDelegateBorrow, Borrower.load, hlb, hdb, runTx] using h
  subst hs₁
  cases hdu : Borrower.delegUpdate s (dkey b.addr d) sh with
  | error e => simp [Borrower.delegate_borrow, hdu] at hdb
  | ok s₀ =>
  simp only [Borrower.delegate_borrow, hdu] at hdb
  by_cases hc : f (b.shares + sh) > b.limit
  · simp [Borrower.borrow, hc] at hdb
  · simp only [Borrower.borrow, hc, ite_false, Except.ok.injEq, Prod.mk.injEq,
      if_neg, not_false_iff] at hdb
    obtain ⟨hb', hsave⟩ := hdb
    subst hb'
    subst hsave
    have aux : ∀ m : Nat, sh ≤ m → m - sh = delegVal s b.addr d →
        s₀ = { s with delegates := insertA s.delegates (dkey b.addr d) (.cur m) } →
        (execDelegateRepay
            (Borrower.save s₀ { b with shares := b.shares + sh }) b.addr d sh).1 = .ok 0 ∧
        delegVal (execDelegateRepay
            (Borrower.save s₀ { b with shares := b.shares + sh }) b.addr d sh).2 b.addr d
          = delegVal s b.addr d ∧
        sharesOf (execDelegateRepay
            (Borrower.save s₀ { b with shares := b.shares + sh }) b.addr d sh).2 b.addr
          = sharesOf s b.addr := by
      intro m hle hval hrep
      subst hrep
      have hmin1 : min sh m = sh := min_eq_left hle
      have hmin2 : min sh (b.shares + sh) = sh := min_eq_left (by omega)
      refine ⟨?_, ?_, ?_⟩
      · simp [execDelegateRepay, Borrower.load, Borrower.save, lookupA_insertA,
          Borrower.delegate_repay, hmin1, hle, Borrower.repay, runTx]
      · simp [execDelegateRepay, Borrower.load, Borrower.save, lookupA_insertA,
          Borrower.delegate_repay, hmin1, hle, Borrower.repay, runTx, delegVal]
        exact hval
      · simp [execDelegateRepay, Borrower.load, Borrower.save, lookupA_insertA,
          Borrower.delegate_repay, hmin1, hle, hmin2, Borrower.repay, runTx,
          sharesOf, hlb]
    cases hlk : lookupA s.delegates (dkey b.addr d) with
    | none =>
      have hdu' : s₀ = { s with delegates := insertA s.delegates (dkey b.addr d) (.cur sh) } := by
        simpa [Borrower.delegUpdate, hlk] using hdu.symm
      exact aux sh le_rfl (by simp [delegVal, hlk]) hdu'
    | some sl =>
      cases sl with
      | legacy od => simp [Borrower.delegUpdate, hlk] at hdu
      | cur n =>
        have hdu' : s₀
            = { s with delegates := insertA s.delegates (dkey b.addr d) (.cur (n + sh)) } := by
          simpa [Borrower.delegUpdate, hlk] using hdu.symm
        exact aux (n + sh) (by omega) (by simp [delegVal, hlk]) hdu'

theorem delegate_roundtrip_witness :
    (execDelegateRepay (⟨[(1, ⟨1, 1000, 800⟩)], [(dkey 1 2, .cur 300)]⟩ : Store) 1 2 300).1
      = .ok 0 ∧
    delegVal (execDelegateRepay
      (⟨[(1, ⟨1, 1000, 800⟩)], [(dkey 1 2, .cur 300)]⟩ : Store) 1 2 300).2 1 2
      = delegVal exStore 1 2 ∧
    sharesOf (execDelegateRepay
      (⟨[(1, ⟨1, 1000, 800⟩)], [(dkey 1 2, .cur 300)]⟩ : Store) 1 2 300).2 1
      = sharesOf exStore 1 :=
  delegate_roundtrip id exStore ⟨[(1, ⟨1, 1000, 800⟩)], [(dkey 1 2, .cur 300)]⟩ 1 2 300
    (by decide) (by rfl)

/-! ### Delegate-sum lemmas (towards C3) -/

theorem lookupA_eq_none_of_forall {κ α : Type} [DecidableEq κ] {l : List (κ × α)} {k : κ}
    (h : ∀ p ∈ l, p.1 ≠ k) : lookupA l k = none := by
  rw [lookupA_eq_none_iff]
  intro hmem
  obtain ⟨p, hp, hpk⟩ := List.mem_map.mp hmem
  exact h p hp hpk

theorem delegSum_cons (p : DKey × DelegSlot) (rest : List (DKey × DelegSlot)) (a : Addr) :
    delegSum (p :: rest) a
      = if (ofLex p.1).1 = a then slotVal p.2 + delegSum rest a else delegSum rest a := by
  simp [delegSum]

theorem delegSum_le_of_mem {l : List (DKey × DelegSlot)} {k : DKey} {sl : DelegSlot} {a : Addr}
    (h : (k, sl) ∈ l) (ha : (ofLex k).1 = a) : slotVal sl ≤ delegSum l a := by
  induction l with
  | nil => cases h
  | cons p rest ih =>
    rcases List.mem_cons.mp h with h | h
    · rw [← h, delegSum_cons]
      simp [ha]
    · rw [delegSum_cons]
      have hrec := ih h
      by_cases hp : (ofLex p.1).1 = a
      · rw [if_pos hp]; omega
      · rwa [if_neg hp]

theorem delegSum_insertA (l : List (DKey × DelegSlot)) (k : DKey) (v : DelegSlot) (a : Addr)
    (hs : sortedKeys l) :
    delegSum (insertA l k v) a + (if (ofLex k).1 = a then optSlot (lookupA l k) else 0)
      = delegSum l a + (if (ofLex k).1 = a then slotVal v else 0) := by
  induction l with
  | nil =>
    by_cases hka : (ofLex k).1 = a <;>
      simp [hka, delegSum, insertA, lookupA, optSlot]
  | cons p rest ih =>
    obtain ⟨k₀, v₀⟩ := p
    rcases List.pairwise_cons.mp hs with ⟨hhead, htail⟩
    by_cases h1 : k < k₀
    · have hnone : lookupA ((k₀, v₀) :: rest) k = none := by
        apply lookupA_eq_none_of_forall
        intro q hq
        rcases List.mem_cons.mp hq with hq | hq
        · rw [hq]; exact ne_of_gt h1
        · exact ne_of_gt (lt_trans h1 (hhead q hq))
      rw [hnone]
      simp only [insertA, if_pos h1, optSlot]
      by_cases hka : (ofLex k).1 = a <;>
        by_cases hk0 : (ofLex k₀).1 = a <;>
          simp [delegSum_cons, hka, hk0] <;> omega
    · by_cases h2 : k = k₀
      · subst h2
        have hlk : lookupA ((k, v₀) :: rest) k = some v₀ := by simp [lookupA]
        rw [hlk]
        simp only [insertA, if_neg h1, if_pos rfl, optSlot]
        by_cases hka : (ofLex k).1 = a <;> simp [delegSum_cons, hka] <;> omega
      · have hlk : lookupA ((k₀, v₀) :: rest) k = lookupA rest k := by
          simp [lookupA, h2]
        rw [hlk]
        simp only [insertA, if_neg h1, if_neg h2]
        have hrec := ih htail
        by_cases hka : (ofLex k).1 = a <;>
          by_cases hk0 : (ofLex k₀).1 = a <;>
            simp [delegSum_cons, hka, hk0] at hrec ⊢ <;> omega

theorem delegUpdate_ok {s : Store} {k : DKey} {sh : Nat} {s₀ : Store}
    (h : Borrower.delegUpdate s k sh = .ok s₀) :
    s₀ = { s with
      delegates := insertA s.delegates k (.cur (optSlot (lookupA s.delegates k) + sh)) } := by
  cases hlk : lookupA s.delegates k with
  | none =>
    simp only [Borrower.delegUpdate, hlk, Except.ok.injEq] at h
    rw [← h]
    simp [optSlot]
  | some sl =>
    cases sl with
    | legacy od => simp [Borrower.delegUpdate, hlk] at h
    | cur n =>
      simp only [Borrower.delegUpdate, hlk, Except.ok.injEq] at h
      rw [← h]
      simp [optSlot, slotVal]

/-! ### Preservation of the delegate-bound invariant (no direct repay) -/

theorem DInv_set (s : Store) (a : Addr) (lim : Nat) (h : DInv s) :
    DInv (execSet s a lim) := by
  obtain ⟨⟨hsb, hsd, haf⟩, hnl, hsum⟩ := h
  have hrec : ((lookupA s.borrowers a).getD ⟨a, 0, 0⟩).addr = a := by
    cases hlk : lookupA s.borrowers a with
    | none => rfl
    | some b₀ => simpa using haf (a, b₀) (lookupA_mem hlk)
  have hshare : ((lookupA s.borrowers a).getD ⟨a, 0, 0⟩).shares = sharesOf s a := by
    cases hlk : lookupA s.borrowers a with
    | none => simp [sharesOf, hlk]
    | some b₀ => simp [sharesOf, hlk]
  refine ⟨⟨sortedKeys_insertA hsb, hsd, ?_⟩, hnl, ?_⟩
  · intro p hp
    simp only [execSet, Borrower.set] at hp
    rcases mem_insertA hp with hp | hp
    · rw [hp]
      simpa using hrec
    · exact haf p hp
  · intro a'
    have hsv : sharesOf (execSet s a lim) a' = sharesOf s a' := by
      by_cases ha : a' = a
      · subst ha
        simp [execSet, Borrower.set, sharesOf, lookupA_insertA, hshare]
      · simp [execSet, Borrower.set, sharesOf, lookupA_insertA, ha]
    rw [hsv]
    exact hsum a'

theorem DInv_execBorrow (f : Nat → Nat) (s : Store) (a : Addr) (sh : Nat) (h : DInv s) :
    DInv (execBorrow f s a sh).2 := by
  obtain ⟨⟨hsb, hsd, haf⟩, hnl, hsum⟩ := h
  cases hlb : lookupA s.borrowers a with
  | none =>
    have he : (execBorrow f s a sh).2 = s := by
      simp [execBorrow, Borrower.load, hlb, runTx]
    rw [he]; exact ⟨⟨hsb, hsd, haf⟩, hnl, hsum⟩
  | some b =>
    have haddr : b.addr = a := haf (a, b) (lookupA_mem hlb)
    by_cases hc : f (b.shares + sh) > b.limit
    · have he : (execBorrow f s a sh).2 = s := by
        simp [execBorrow, Borrower.load, hlb, Borrower.borrow, hc, runTx]
      rw [he]; exact ⟨⟨hsb, hsd, haf⟩, hnl, hsum⟩
    · have he : (execBorrow f s a sh).2
          = Borrower.save s { b with shares := b.shares + sh } := by
        simp [execBorrow, Borrower.load, hlb, Borrower.borrow, hc, runTx]
      rw [he]
      refine ⟨⟨sortedKeys_insertA hsb, hsd, ?_⟩, hnl, ?_⟩
      · intro p hp
        simp only [Borrower.save] at hp
        rcases mem_insertA hp with hp | hp
        · rw [hp]
        · exact haf p hp
      · intro a'
        have hsum' := hsum a'
        have hd : (Borrower.save s { b with shares := b.shares + sh }).delegates
            = s.delegates := rfl
        by_cases ha : a' = b.addr
        · have h1 : sharesOf (Borrower.save s { b with shares := b.shares + sh }) a'
              = b.shares + sh := by
            simp [Borrower.save, sharesOf, lookupA_insertA, ha]
          have h2 : sharesOf s a' = b.shares := by
            simp [sharesOf, ha, haddr, hlb]
          rw [h1, hd]
          rw [h2] at hsum'
          omega
        · have h1 : sharesOf (Borrower.save s { b with shares := b.shares + sh }) a'
              = sharesOf s a' := by
            simp [Borrower.save, sharesOf, lookupA_insertA, ha]
          rw [h1, hd]
          exact hsum'


theorem DInv_execDelegateBorrow (f : Nat → Nat) (s : Store) (a d : Addr) (sh : Nat)
    (h : DInv s) : DInv (execDelegateBorrow f s a d sh).2 := by
  obtain ⟨⟨hsb, hsd, haf⟩, hnl, hsum⟩ := h
  cases hlb : lookupA s.borrowers a with
  | none =>
    have he : (execDelegateBorrow f s a d sh).2 = s := by
      simp [execDelegateBorrow, Borrower.load, hlb, runTx]
    rw [he]; exact ⟨⟨hsb, hsd, haf⟩, hnl, hsum⟩
  | some b =>
    have haddr : b.addr = a := haf (a, b) (lookupA_mem hlb)
    cases hdb : Borrower.delegate_borrow f s b d sh with
    | error e =>
      have he : (execDelegateBorrow f s a d sh).2 = s := by
        simp [execDelegateBorrow, Borrower.load, hlb, hdb, runTx]
      rw [he]; exact ⟨⟨hsb, hsd, haf⟩, hnl, hsum⟩
    | ok r =>
      obtain ⟨b', s'⟩ := r
      have he : (execDelegateBorrow f s a d sh).2 = s' := by
        simp [execDelegateBorrow, Borrower.load, hlb, hdb, runTx]
      rw [he]
      cases hdu : Borrower.delegUpdate s (dkey b.addr d) sh with
      | error e => simp [Borrower.delegate_borrow, hdu] at hdb
      | ok s₀ =>
        have hs₀ := delegUpdate_ok hdu
        simp only [Borrower.delegate_borrow, hdu] at hdb
        by_cases hc : f (b.shares + sh) > b.limit
        · simp [Borrower.borrow, hc] at hdb
        · simp [Borrower.borrow, hc] at hdb
          obtain ⟨hb', hs'⟩ := hdb
          subst hb'
          subst hs'
          subst hs₀
          refine ⟨⟨sortedKeys_insertA hsb, sortedKeys_insertA hsd, ?_⟩, ?_, ?_⟩
          · intro p hp
            simp only [Borrower.save] at hp
            rcases mem_insertA hp with hp | hp
            · rw [hp]
            · exact haf p hp
          · intro p hp dd
            simp only [Borrower.save] at hp
            rcases mem_insertA hp with hp | hp
            · rw [hp]; simp
            · exact hnl p hp dd
          · intro a'
            have hA := delegSum_insertA s.delegates (dkey b.addr d)
              (.cur (optSlot (lookupA s.delegates (dkey b.addr d)) + sh)) a' hsd
            have hsum' := hsum a'
            have hvv : slotVal (.cur (optSlot (lookupA s.delegates (dkey b.addr d)) + sh))
                = optSlot (lookupA s.delegates (dkey b.addr d)) + sh := rfl
            have hk1 : (ofLex (dkey b.addr d)).1 = b.addr := rfl
            rw [hvv, hk1] at hA
            by_cases ha : a' = b.addr
            · subst ha
              rw [if_pos rfl, if_pos rfl] at hA
              have h2 : sharesOf s b.addr = b.shares := by
                simp [sharesOf, haddr, hlb]
              rw [h2] at hsum'
              simp only [Borrower.save, sharesOf, lookupA_insertA]
              simp
              omega
            · rw [if_neg (fun hh => ha hh.symm), if_neg (fun hh => ha hh.symm)] at hA
              simp only [sharesOf] at hsum'
              simp only [Borrower.save, sharesOf, lookupA_insertA]
              simp [ha]
              omega

theorem DInv_execDelegateRepay (s : Store) (a d : Addr) (sh : Nat) (h : DInv s) :
    DInv (execDelegateRepay s a d sh).2 := by
  obtain ⟨⟨hsb, hsd, haf⟩, hnl, hsum⟩ := h
  cases hlb : lookupA s.borrowers a with
  | none =>
    have he : (execDelegateRepay s a d sh).2 = s := by
      simp [execDelegateRepay, Borrower.load, hlb, runTx]
    rw [he]; exact ⟨⟨hsb, hsd, haf⟩, hnl, hsum⟩
  | some b =>
    have haddr : b.addr = a := haf (a, b) (lookupA_mem hlb)
    cases hlk : lookupA s.delegates (dkey b.addr d) with
    | none =>
      have he : (execDelegateRepay s a d sh).2 = s := by
        simp [execDelegateRepay, Borrower.load, hlb, Borrower.delegate_repay, hlk, runTx]
      rw [he]; exact ⟨⟨hsb, hsd, haf⟩, hnl, hsum⟩
    | some sl =>
      cases sl with
      | legacy od =>
        have he : (execDelegateRepay s a d sh).2 = s := by
          simp [execDelegateRepay, Borrower.load, hlb, Borrower.delegate_repay, hlk, runTx]
        rw [he]; exact ⟨⟨hsb, hsd, haf⟩, hnl, hsum⟩
      | cur m =>
        have hmle : m ≤ delegSum s.delegates b.addr := by
          have hm' : slotVal (.cur m) ≤ delegSum s.delegates b.addr :=
            delegSum_le_of_mem (lookupA_mem hlk) rfl
          simpa [slotVal] using hm'
        have he : (execDelegateRepay s a d sh).2
            = Borrower.save
                (Store.mk s.borrowers
                  (insertA s.delegates (dkey b.addr d) (DelegSlot.cur (m - min sh m))))
                (Borrower.mk b.addr b.limit (b.shares - min (min sh m) b.shares)) := by
          simp [execDelegateRepay, Borrower.load, hlb, Borrower.delegate_repay, hlk,
            min_le_right, Borrower.repay, runTx, Borrower.save]
        rw [he]
        refine ⟨⟨sortedKeys_insertA hsb, sortedKeys_insertA hsd, ?_⟩, ?_, ?_⟩
        · intro p hp
          simp only [Borrower.save] at hp
          rcases mem_insertA hp with hp | hp
          · rw [hp]
          · exact haf p hp
        · intro p hp dd
          simp only [Borrower.save] at hp
          rcases mem_insertA hp with hp | hp
          · rw [hp]; simp
          · exact hnl p hp dd
        · intro a'
          have hA := delegSum_insertA s.delegates (dkey b.addr d)
            (.cur (m - min sh m)) a' hsd
          have hsum' := hsum a'
          have hvv : slotVal (.cur (m - min sh m)) = m - min sh m := rfl
          have hk1 : (ofLex (dkey b.addr d)).1 = b.addr := rfl
          have hos : optSlot (lookupA s.delegates (dkey b.addr d)) = m := by
            rw [hlk]; rfl
          rw [hvv, hk1, hos] at hA
          by_cases ha : a' = b.addr
          · subst ha
            rw [if_pos rfl, if_pos rfl] at hA
            have h2 : sharesOf s b.addr = b.shares := by
              simp [sharesOf, haddr, hlb]
            rw [h2] at hsum'
            simp only [Borrower.save, sharesOf, lookupA_insertA]
            simp
            omega
          · rw [if_neg (fun hh => ha hh.symm), if_neg (fun hh => ha hh.symm)] at hA
            simp only [sharesOf] at hsum'
            simp only [Borrower.save, sharesOf, lookupA_insertA]
            simp [ha]
            omega

theorem DInv_execMigrate (s : Store) (h : DInv s) : DInv (execMigrate s).2 := by
  obtain ⟨hWF, hnl, hsum⟩ := h
  have he : (execMigrate s).2 = s := by
    cases hd : s.delegates with
    | nil =>
      simp only [execMigrate, migrate, hd, readLegacy, writeDelegates, migrateTotals,
        foldTotals, applyTotals, runTx, foldIns]
      rw [← hd]
    | cons p rest =>
      obtain ⟨k, sl⟩ := p
      cases sl with
      | legacy od =>
        exact absurd rfl (hnl (k, .legacy od) (by rw [hd]; exact List.mem_cons_self _ _) od)
      | cur n => simp [execMigrate, migrate, hd, readLegacy, runTx]
  rw [he]; exact ⟨hWF, hnl, hsum⟩

theorem DInv_stepND {f : Nat → Nat} {s s' : Store} (h : DInv s) (hs : StepND f s s') :
    DInv s' := by
  cases hs with
  | set a lim => exact DInv_set s a lim h
  | borrow a sh => exact DInv_execBorrow f s a sh h
  | delegateBorrow a d sh => exact DInv_execDelegateBorrow f s a d sh h
  | delegateRepay a d sh => exact DInv_execDelegateRepay s a d sh h
  | migration => exact DInv_execMigrate s h

theorem ReachableND_DInv {f : Nat → Nat} {s : Store} (h : ReachableND f s) : DInv s := by
  induction h with
  | empty =>
    refine ⟨⟨?_, ?_, ?_⟩, ?_, ?_⟩ <;>
      simp [Store.empty, delegSum, sharesOf, lookupA]
  | step hr hstep ih => exact DInv_stepND ih hstep

/-! ### C3: delegate entries vs aggregate shares -/

/-- C3 counterexample: `set(1, 1000)`, `delegateBorrow(1, 2, 100)`,
`repay(1, 100)` (with `ownership = id`) reaches a state where the delegate
entry for the pair `(1, 2)` is 100 while borrower 1's aggregate shares are 0:
a direct `repay` lowers the aggregate without touching the delegate ledger,
so the claimed reachable-state invariant is false. -/
theorem delegate_bound_cex :
    Reachable id
      (execRepay (execDelegateBorrow id (execSet Store.empty 1 1000) 1 2 100).2 1 100).2 ∧
    delegVal
      (execRepay (execDelegateBorrow id (execSet Store.empty 1 1000) 1 2 100).2 1 100).2 1 2
      = 100 ∧
    sharesOf
      (execRepay (execDelegateBorrow id (execSet Store.empty 1 1000) 1 2 100).2 1 100).2 1
      = 0 ∧
    ¬ (100 ≤ 0) := by
  refine ⟨?_, by rfl, by rfl, by decide⟩
  exact Reachable.step
    (Reachable.step (Reachable.step Reachable.empty (Step.set Store.empty 1 1000))
      (Step.delegateBorrow _ 1 2 100))
    (Step.repay _ 1 100)

/-- C3 (amended): in every state reachable by public operations WITHOUT a
direct `repay`, the delegate-ledger count of every pair `(b, d)` is bounded by
borrower `b`'s aggregate shares; the unamended claim fails because direct
`repay` decrements the aggregate but not the delegate ledger. -/
theorem delegate_bound_no_direct_repay (f : Nat → Nat) (s : Store) (b d : Addr)
    (h : ReachableND f s) : delegVal s b d ≤ sharesOf s b := by
  obtain ⟨hWF, hnl, hsum⟩ := ReachableND_DInv h
  cases hlk : lookupA s.delegates (dkey b d) with
  | none => simp [delegVal, hlk]
  | some sl =>
    cases sl with
    | legacy od => simp [delegVal, hlk]
    | cur n =>
      have hle : slotVal (.cur n) ≤ delegSum s.delegates b :=
        delegSum_le_of_mem (lookupA_mem hlk) rfl
      have h1 : delegVal s b d = n := by simp [delegVal, hlk]
      rw [h1]
      exact le_trans (by simpa [slotVal] using hle) (hsum b)

theorem delegate_bound_no_direct_repay_witness :
    delegVal (execDelegateBorrow id (execSet Store.empty 1 1000) 1 2 100).2 1 2
      ≤ sharesOf (execDelegateBorrow id (execSet Store.empty 1 1000) 1 2 100).2 1 :=
  delegate_bound_no_direct_repay id _ 1 2
    (ReachableND.step (ReachableND.step ReachableND.empty (StepND.set Store.empty 1 1000))
      (StepND.delegateBorrow _ 1 2 100))

/-! ### Migration lemmas -/

theorem readLegacy_ok {l : List (DKey × DelegSlot)} {old : List (DKey × OldDelegate)}
    (h : readLegacy l = .ok old) :
    l = old.map (fun p => (p.1, DelegSlot.legacy p.2)) := by
  induction l generalizing old with
  | nil =>
    simp only [readLegacy, Except.ok.injEq] at h
    rw [← h]
    rfl
  | cons p rest ih =>
    obtain ⟨k, sl⟩ := p
    cases sl with
    | legacy dd =>
      cases hr : readLegacy rest with
      | error e => simp [readLegacy, hr] at h
      | ok l' =>
        simp only [readLegacy, hr, Except.ok.injEq] at h
        rw [← h]
        simp [ih hr]
    | cur n => simp [readLegacy] at h

theorem applyTotals_delegates {ts : List (Addr × Nat)} :
    ∀ {st st' : Store}, applyTotals ts st = .ok st' → st'.delegates = st.delegates := by
  induction ts with
  | nil =>
    intro st st' h
    simp only [applyTotals, Except.ok.injEq] at h
    rw [← h]
  | cons q rest ih =>
    intro st st' h
    obtain ⟨a, tot⟩ := q
    cases hlk : lookupA st.borrowers a with
    | none => simp [applyTotals, hlk] at h
    | some b =>
      simp only [applyTotals, hlk] at h
      have hres := ih h
      exact hres

theorem foldIns_lookup_nomem {old : List (DKey × OldDelegate)}
    {l : List (DKey × DelegSlot)} {k : DKey} (h : ∀ q ∈ old, q.1 ≠ k) :
    lookupA (foldIns old l) k = lookupA l k := by
  induction old generalizing l with
  | nil => rfl
  | cons q rest ih =>
    simp only [foldIns]
    rw [ih (fun p hp => h p (List.mem_cons_of_mem _ hp)), lookupA_insertA]
    exact if_neg (fun hh => h q (List.mem_cons_self _ _) hh.symm)

theorem foldIns_lookup_mem {old : List (DKey × OldDelegate)}
    {l : List (DKey × DelegSlot)} {k : DKey} {dd : OldDelegate}
    (hnd : old.Pairwise (fun p q => p.1 < q.1)) (h : (k, dd) ∈ old) :
    lookupA (foldIns old l) k = some (.cur dd.shares) := by
  induction old generalizing l with
  | nil => cases h
  | cons q rest ih =>
    rcases List.pairwise_cons.mp hnd with ⟨hhead, htail⟩
    rcases List.mem_cons.mp h with h | h
    · subst h
      simp only [foldIns]
      rw [foldIns_lookup_nomem, lookupA_insertA, if_pos rfl]
      intro p hp
      exact ne_of_gt (hhead p hp)
    · simp only [foldIns]
      exact ih htail h

theorem foldIns_cons_gt {old : List (DKey × OldDelegate)} {k₀ : DKey} {v₀ : DelegSlot}
    {tl : List (DKey × DelegSlot)} (h : ∀ q ∈ old, k₀ < q.1) :
    foldIns old ((k₀, v₀) :: tl) = (k₀, v₀) :: foldIns old tl := by
  induction old generalizing tl with
  | nil => rfl
  | cons q rest ih =>
    have hq : k₀ < q.1 := h q (List.mem_cons_self _ _)
    simp only [foldIns]
    have h1 : ¬ q.1 < k₀ := lt_asymm hq
    have h2 : ¬ q.1 = k₀ := ne_of_gt hq
    have hins : insertA ((k₀, v₀) :: tl) q.1 (DelegSlot.cur q.2.shares)
        = (k₀, v₀) :: insertA tl q.1 (DelegSlot.cur q.2.shares) := by
      simp [insertA, h1, h2]
    rw [hins]
    exact ih (fun p hp => h p (List.mem_cons_of_mem _ hp))

theorem lookupA_addTotal (m : List (Addr × Nat)) (a : Addr) (n : Nat) (a' : Addr) :
    lookupA (addTotal m a n) a'
      = if a' = a then some ((lookupA m a).getD 0 + n) else lookupA m a' := by
  induction m with
  | nil =>
    by_cases h : a' = a <;> simp [addTotal, lookupA, h]
  | cons q rest ih =>
    obtain ⟨a₀, t₀⟩ := q
    by_cases h0 : a₀ = a
    · subst h0
      by_cases h : a' = a₀ <;> simp [addTotal, lookupA, h]
    · have h0' : ¬ a = a₀ := fun hh => h0 hh.symm
      by_cases h : a' = a₀
      · subst h
        simp [addTotal, h0, lookupA, ih, h0']
      · simp [addTotal, h0, lookupA, h, ih, h0']

theorem hasA_cons (p : DKey × OldDelegate) (rest : List (DKey × OldDelegate)) (a : Addr) :
    hasA (p :: rest) a = (((ofLex p.1).1 == a) || hasA rest a) := by
  simp [hasA]

theorem oldTotal_cons (p : DKey × OldDelegate) (rest : List (DKey × OldDelegate)) (a : Addr) :
    oldTotal (p :: rest) a
      = if (ofLex p.1).1 = a then p.2.shares + oldTotal rest a else oldTotal rest a := by
  simp [oldTotal]

theorem oldTotal_eq_zero {old : List (DKey × OldDelegate)} {a : Addr}
    (h : hasA old a = false) : oldTotal old a = 0 := by
  induction old with
  | nil => rfl
  | cons p rest ih =>
    rw [hasA_cons] at h
    simp only [Bool.or_eq_false_iff] at h
    have h1 : ¬ (ofLex p.1).1 = a := by simpa using h.1
    rw [oldTotal_cons, if_neg h1]
    exact ih h.2

theorem foldTotals_lookup (old : List (DKey × OldDelegate)) :
    ∀ (m : List (Addr × Nat)) (a : Addr),
      lookupA (foldTotals old m) a
        = if hasA old a then some ((lookupA m a).getD 0 + oldTotal old a)
          else lookupA m a := by
  induction old with
  | nil => intro m a; simp [foldTotals, hasA, oldTotal]
  | cons p rest ih =>
    intro m a
    rw [show foldTotals (p :: rest) m
        = foldTotals rest (addTotal m (ofLex p.1).1 p.2.shares) from rfl]
    rw [ih, hasA_cons, oldTotal_cons, lookupA_addTotal]
    by_cases hpa : (ofLex p.1).1 = a
    · rw [hpa]
      by_cases hr : hasA rest a
      · simp [hr, Nat.add_assoc]
      · have h0 : oldTotal rest a = 0 := oldTotal_eq_zero (by simpa using hr)
        simp [hr, h0]
    · have hb : ((ofLex p.1).1 == a) = false := by simpa using hpa
      have hne : ¬ a = (ofLex p.1).1 := fun hh => hpa hh.symm
      rw [hb, if_neg hpa]
      by_cases hr : hasA rest a
      · simp [hr, hne]
      · simp [hr, hne]

theorem migrateTotals_lookup (old : List (DKey × OldDelegate)) (a : Addr) :
    lookupA (migrateTotals old) a
      = if hasA old a then some (oldTotal old a) else none := by
  rw [show migrateTotals old = foldTotals old [] from rfl, foldTotals_lookup]
  by_cases hr : hasA old a <;> simp [hr, lookupA]

theorem keys_addTotal (m : List (Addr × Nat)) (a : Addr) (n : Nat) :
    (addTotal m a n).map Prod.fst
      = if a ∈ m.map Prod.fst then m.map Prod.fst else m.map Prod.fst ++ [a] := by
  induction m with
  | nil => simp [addTotal]
  | cons q rest ih =>
    obtain ⟨a₀, t₀⟩ := q
    by_cases h0 : a₀ = a
    · subst h0
      simp [addTotal]
    · have h0' : ¬ a = a₀ := fun hh => h0 hh.symm
      by_cases hm : a ∈ rest.map Prod.fst <;>
        simp [addTotal, h0, ih, h0', hm]

theorem nodup_addTotal {m : List (Addr × Nat)} {a : Addr} {n : Nat}
    (h : (m.map Prod.fst).Nodup) : ((addTotal m a n).map Prod.fst).Nodup := by
  rw [keys_addTotal]
  by_cases hm : a ∈ m.map Prod.fst
  · simpa [hm] using h
  · simp only [hm, if_neg, ite_false]
    simp [List.nodup_append, h, hm]

theorem nodup_foldTotals (old : List (DKey × OldDelegate)) :
    ∀ m, (m.map Prod.fst).Nodup → ((foldTotals old m).map Prod.fst).Nodup := by
  induction old with
  | nil => intro m h; exact h
  | cons p rest ih => intro m h; exact ih _ (nodup_addTotal h)

theorem migrateTotals_nodup (old : List (DKey × OldDelegate)) :
    ((migrateTotals old).map Prod.fst).Nodup :=
  nodup_foldTotals old [] (by simp)

theorem applyTotals_frame {ts : List (Addr × Nat)} :
    ∀ {st st' : Store}, applyTotals ts st = .ok st' →
      (∀ p ∈ st.borrowers, p.2.addr = p.1) →
      ∀ a : Addr, (∀ q ∈ ts, q.1 ≠ a) →
        lookupA st'.borrowers a = lookupA st.borrowers a := by
  induction ts with
  | nil =>
    intro st st' h _ a _
    simp only [applyTotals, Except.ok.injEq] at h
    rw [← h]
  | cons q rest ih =>
    intro st st' h haf a hne
    obtain ⟨a₀, t₀⟩ := q
    cases hlk : lookupA st.borrowers a₀ with
    | none => simp [applyTotals, hlk] at h
    | some b =>
      simp only [applyTotals, hlk] at h
      have hb : b.addr = a₀ := haf (a₀, b) (lookupA_mem hlk)
      have haf' : ∀ p ∈ (Borrower.save st { b with shares := t₀ }).borrowers,
          p.2.addr = p.1 := by
        intro p hp
        rcases mem_insertA hp with hp | hp
        · rw [hp]
        · exact haf p hp
      have hstep := ih h haf' a (fun q hq => hne q (List.mem_cons_of_mem _ hq))
      rw [hstep]
      have hne0 : ¬ a = b.addr := by
        rw [hb]
        exact fun hh => hne (a₀, t₀) (List.mem_cons_self _ _) hh.symm
      simp only [Borrower.save, lookupA_insertA]
      rw [if_neg hne0]

theorem applyTotals_lookup {ts : List (Addr × Nat)} :
    ∀ {st st' : Store}, applyTotals ts st = .ok st' →
      (ts.map Prod.fst).Nodup →
      (∀ p ∈ st.borrowers, p.2.addr = p.1) →
      ∀ a tot, lookupA ts a = some tot →
        ∃ b₀, lookupA st.borrowers a = some b₀ ∧
          lookupA st'.borrowers a = some (Borrower.mk b₀.addr b₀.limit tot) := by
  induction ts with
  | nil =>
    intro st st' h hnd haf a tot hts
    simp [lookupA] at hts
  | cons q rest ih =>
    intro st st' h hnd haf a tot hts
    obtain ⟨a₀, t₀⟩ := q
    cases hlk : lookupA st.borrowers a₀ with
    | none => simp [applyTotals, hlk] at h
    | some b =>
      simp only [applyTotals, hlk] at h
      have hb : b.addr = a₀ := haf (a₀, b) (lookupA_mem hlk)
      have haf' : ∀ p ∈ (Borrower.save st { b with shares := t₀ }).borrowers,
          p.2.addr = p.1 := by
        intro p hp
        rcases mem_insertA hp with hp | hp
        · rw [hp]
        · exact haf p hp
      have hnd' : (a₀ :: rest.map Prod.fst).Nodup := by simpa using hnd
      rcases List.nodup_cons.mp hnd' with ⟨ha₀, hndr⟩
      by_cases ha : a = a₀
      · subst ha
        have htot : t₀ = tot := by simpa [lookupA] using hts
        subst htot
        refine ⟨b, hlk, ?_⟩
        have hfr := applyTotals_frame h haf' a
          (fun q hq hh => ha₀ (hh ▸ List.mem_map_of_mem Prod.fst hq))
        rw [hfr]
        simp only [Borrower.save, lookupA_insertA]
        rw [hb, if_pos rfl]
      · have hts' : lookupA rest a = some tot := by simpa [lookupA, ha] using hts
        have hlk' : lookupA (Borrower.save st { b with shares := t₀ }).borrowers a
            = lookupA st.borrowers a := by
          simp only [Borrower.save, lookupA_insertA]
          rw [if_neg (by rw [hb]; exact ha)]
        obtain ⟨b₀, hb₀, hb₀'⟩ := ih h hndr haf' a tot hts'
        rw [hlk'] at hb₀
        exact ⟨b₀, hb₀, hb₀'⟩

theorem legacyTotal_map (old : List (DKey × OldDelegate)) (a : Addr) :
    legacyTotal (old.map (fun p => (p.1, DelegSlot.legacy p.2))) a = oldTotal old a := by
  induction old with
  | nil => rfl
  | cons p rest ih => simp [legacyTotal, oldTotal] at ih ⊢; rw [ih]

theorem refed_map (old : List (DKey × OldDelegate)) (a : Addr) :
    refed (old.map (fun p => (p.1, DelegSlot.legacy p.2))) a = hasA old a := by
  induction old with
  | nil => rfl
  | cons p rest ih => simp [refed, hasA] at ih ⊢; rw [ih]

theorem mem_old_of_mem_map {old : List (DKey × OldDelegate)} {k : DKey} {dd : OldDelegate}
    (h : (k, DelegSlot.legacy dd) ∈ old.map (fun p => (p.1, DelegSlot.legacy p.2))) :
    (k, dd) ∈ old := by
  obtain ⟨p, hp, he⟩ := List.mem_map.mp h
  obtain ⟨k', d'⟩ := p
  simp only [Prod.mk.injEq, DelegSlot.legacy.injEq] at he
  obtain ⟨h1, h2⟩ := he
  rw [← h1, ← h2]
  exact hp

/-! ### C8: migrate postcondition -/

/-- C8: after a successful `migrate`, every `(borrower, delegate)` pair of the
legacy table appears verbatim (as its plain share count) in the normalized
delegate ledger, and each referenced borrower's `shares` equals the sum of
that borrower's legacy delegate entries (the previously stored value is
discarded, while `addr` and `limit` are kept); if any referenced borrower
record is absent, the whole migration fails. -/
theorem migrate_correct (s s' : Store) (hWF : s.WF) :
    (migrate s = .ok s' →
      (∀ k dd, (k, DelegSlot.legacy dd) ∈ s.delegates →
        lookupA s'.delegates k = some (.cur dd.shares)) ∧
      (∀ k dd, (k, DelegSlot.legacy dd) ∈ s.delegates →
        ∃ b₀, lookupA s.borrowers (ofLex k).1 = some b₀ ∧
          lookupA s'.borrowers (ofLex k).1
            = some (Borrower.mk b₀.addr b₀.limit (legacyTotal s.delegates (ofLex k).1)))) ∧
    ((∃ k dd, (k, DelegSlot.legacy dd) ∈ s.delegates ∧
        lookupA s.borrowers (ofLex k).1 = none) →
      ∀ s₂, migrate s ≠ .ok s₂) := by
  cases hrl : readLegacy s.delegates with
  | error e =>
    constructor
    · intro hok
      simp [migrate, hrl] at hok
    · intro _ s₂ hok
      simp [migrate, hrl] at hok
  | ok old =>
    have hmap := readLegacy_ok hrl
    have hpw : old.Pairwise (fun p q => p.1 < q.1) := by
      have hs := hWF.2.1
      rw [hmap] at hs
      have hs' := List.pairwise_map.mp hs
      simpa using hs'
    constructor
    · intro hok
      simp only [migrate, hrl] at hok
      constructor
      · intro k dd hmem
        have hmem' : (k, dd) ∈ old := mem_old_of_mem_map (by rw [← hmap]; exact hmem)
        have hdel : s'.delegates = foldIns old s.delegates := by
          rw [applyTotals_delegates hok]
          rfl
        rw [hdel]
        exact foldIns_lookup_mem hpw hmem'
      · intro k dd hmem
        have hmem' : (k, dd) ∈ old := mem_old_of_mem_map (by rw [← hmap]; exact hmem)
        have hhas : hasA old (ofLex k).1 = true :=
          List.any_eq_true.mpr ⟨(k, dd), hmem', by simp⟩
        have hts : lookupA (migrateTotals old) (ofLex k).1
            = some (oldTotal old (ofLex k).1) := by
          rw [migrateTotals_lookup, if_pos hhas]
        obtain ⟨b₀, hb₀, hb₀'⟩ :=
          applyTotals_lookup hok (migrateTotals_nodup old) hWF.2.2 (ofLex k).1 _ hts
        refine ⟨b₀, hb₀, ?_⟩
        rw [show legacyTotal s.delegates (ofLex k).1 = oldTotal old (ofLex k).1 from by
          rw [hmap]; exact legacyTotal_map old _]
        exact hb₀'
    · rintro ⟨k, dd, hmem, hnone⟩ s₂ hok
      simp only [migrate, hrl] at hok
      have hmem' : (k, dd) ∈ old := mem_old_of_mem_map (by rw [← hmap]; exact hmem)
      have hhas : hasA old (ofLex k).1 = true :=
        List.any_eq_true.mpr ⟨(k, dd), hmem', by simp⟩
      have hts : lookupA (migrateTotals old) (ofLex k).1
          = some (oldTotal old (ofLex k).1) := by
        rw [migrateTotals_lookup, if_pos hhas]
      obtain ⟨b₀, hb₀, _⟩ :=
        applyTotals_lookup hok (migrateTotals_nodup old) hWF.2.2 (ofLex k).1 _ hts
      have hb₀s : lookupA s.borrowers (ofLex k).1 = some b₀ := hb₀
      rw [hnone] at hb₀s
      cases hb₀s

theorem migrate_correct_witness :
    lookupA migStore1.delegates (dkey 1 2) = some (.cur 300) ∧
    (∃ b₀, lookupA migStore.borrowers (ofLex (dkey 1 2)).1 = some b₀ ∧
      lookupA migStore1.borrowers (ofLex (dkey 1 2)).1
        = some (Borrower.mk b₀.addr b₀.limit
            (legacyTotal migStore.delegates (ofLex (dkey 1 2)).1))) :=
  ⟨((migrate_correct migStore migStore1 (by decide)).1 (by rfl)).1
      (dkey 1 2) ⟨migB, 2, 300⟩ (by decide),
   ((migrate_correct migStore migStore1 (by decide)).1 (by rfl)).2
      (dkey 1 2) ⟨migB, 2, 300⟩ (by decide)⟩

/-! ### C10: migrate frame conditions -/

/-- C10: `migrate` modifies only the `shares` field of borrowers that appear
in at least one legacy delegate record: a borrower with no legacy entries
keeps its whole record unchanged, and an updated borrower keeps its `addr`
and `limit`. -/
theorem migrate_frame (s s' : Store) (hWF : s.WF) (hok : migrate s = .ok s') :
    (∀ a : Addr, refed s.delegates a = false →
      lookupA s'.borrowers a = lookupA s.borrowers a) ∧
    (∀ (a : Addr) (b₀ : Borrower), refed s.delegates a = true →
      lookupA s.borrowers a = some b₀ →
      ∃ b₁, lookupA s'.borrowers a = some b₁ ∧
        b₁.addr = b₀.addr ∧ b₁.limit = b₀.limit) := by
  cases hrl : readLegacy s.delegates with
  | error e => simp [migrate, hrl] at hok
  | ok old =>
    simp only [migrate, hrl] at hok
    have hmap := readLegacy_ok hrl
    constructor
    · intro a hr
      have hhas : hasA old a = false := by
        rw [← refed_map old a, ← hmap]
        exact hr
      have hts : lookupA (migrateTotals old) a = none := by
        rw [migrateTotals_lookup, if_neg]
        simp [hhas]
      have hnotin : a ∉ (migrateTotals old).map Prod.fst := lookupA_eq_none_iff.mp hts
      have hne : ∀ q ∈ migrateTotals old, q.1 ≠ a :=
        fun q hq hh => hnotin (hh ▸ List.mem_map_of_mem Prod.fst hq)
      exact applyTotals_frame hok hWF.2.2 a hne
    · intro a b₀ hr hb
      have hhas : hasA old a = true := by
        rw [← refed_map old a, ← hmap]
        exact hr
      have hts : lookupA (migrateTotals old) a = some (oldTotal old a) := by
        rw [migrateTotals_lookup, if_pos hhas]
      obtain ⟨b₀', hb₀, hb₀'⟩ :=
        applyTotals_lookup hok (migrateTotals_nodup old) hWF.2.2 a _ hts
      have hb₀s : lookupA s.borrowers a = some b₀' := hb₀
      rw [hb] at hb₀s
      have hbe : b₀ = b₀' := Option.some.inj hb₀s
      exact ⟨Borrower.mk b₀'.addr b₀'.limit (oldTotal old a), hb₀', by rw [hbe], by rw [hbe]⟩

theorem migrate_frame_witness :
    lookupA migStore1.borrowers 5 = lookupA migStore.borrowers 5 ∧
    (∃ b₁, lookupA migStore1.borrowers 1 = some b₁ ∧
      b₁.addr = migB.addr ∧ b₁.limit = migB.limit) :=
  ⟨(migrate_frame migStore migStore1 (by decide) (by rfl)).1 5 (by rfl),
   (migrate_frame migStore migStore1 (by decide) (by rfl)).2 1 migB (by rfl) (by rfl)⟩

/-! ### C5: re-running migrate -/

/-- C5 counterexample: on `migStore` (two legacy delegate records) the first
`migrate` succeeds and produces `migStore1`, but — because the legacy map and
`DELEGATE_SHARES` are both declared with storage namespace "delegates" — the
legacy records were overwritten in place by plain counts, so a second
`migrate` does not recompute the same totals: it fails with a
deserialization error. -/
theorem migrate_rerun_cex :
    migrate migStore = .ok migStore1 ∧ migrate migStore1 = .error .parseErr :=
  ⟨by rfl, by rfl⟩

/-- C5 (amended): a successful `migrate` overwrites every legacy slot in
place (the two maps share the namespace "delegates"), so a second external
`migrate` call leaves the state exactly as after the first: with a nonempty
legacy table it fails on deserialization and is rolled back by the host
transaction; with an empty one it is a no-op. -/
theorem migrate_rerun (s s' : Store) (hWF : s.WF) (hok : migrate s = .ok s') :
    (execMigrate s').2 = s' := by
  cases hrl : readLegacy s.delegates with
  | error e => simp [migrate, hrl] at hok
  | ok old =>
    simp only [migrate, hrl] at hok
    have hmap := readLegacy_ok hrl
    have hdel : s'.delegates = foldIns old s.delegates := by
      rw [applyTotals_delegates hok]
      rfl
    rcases old with _ | ⟨⟨k₀, d₀⟩, oldtl⟩
    · have hd' : s'.delegates = [] := by
        rw [hdel]
        rw [show foldIns [] s.delegates = s.delegates from rfl, hmap]
        rfl
      simp only [execMigrate, migrate, hd', readLegacy, migrateTotals, foldTotals,
        applyTotals, writeDelegates, foldIns, runTx]
      rw [← hd']
    · have hd0 : s.delegates = (k₀, DelegSlot.legacy d₀) ::
          oldtl.map (fun p => (p.1, DelegSlot.legacy p.2)) := by
        rw [hmap]
        rfl
      have hgt : ∀ q ∈ oldtl, k₀ < q.1 := by
        have hs := hWF.2.1
        rw [hd0] at hs
        rcases List.pairwise_cons.mp hs with ⟨hhead, _⟩
        intro q hq
        exact hhead (q.1, DelegSlot.legacy q.2) (List.mem_map_of_mem _ hq)
      have hins : foldIns ((k₀, d₀) :: oldtl) s.delegates
          = (k₀, DelegSlot.cur d₀.shares) ::
            foldIns oldtl (oldtl.map (fun p => (p.1, DelegSlot.legacy p.2))) := by
        rw [hd0]
        simp only [foldIns]
        rw [show insertA
              ((k₀, DelegSlot.legacy d₀) :: oldtl.map (fun p => (p.1, DelegSlot.legacy p.2)))
              k₀ (DelegSlot.cur d₀.shares)
            = (k₀, DelegSlot.cur d₀.shares) ::
              oldtl.map (fun p => (p.1, DelegSlot.legacy p.2)) from by simp [insertA]]
        exact foldIns_cons_gt hgt
      have hd' : s'.delegates = (k₀, DelegSlot.cur d₀.shares) ::
          foldIns oldtl (oldtl.map (fun p => (p.1, DelegSlot.legacy p.2))) := by
        rw [hdel, hins]
      simp [execMigrate, migrate, hd', readLegacy, runTx]

theorem migrate_rerun_witness : (execMigrate migStore1).2 = migStore1 :=
  migrate_rerun migStore migStore1 (by decide) (by rfl)

/-! ### Pagination lemmas (towards C6) -/

theorem mem_of_getLast? {α : Type} {l : List α} {a : α} (h : l.getLast? = some a) :
    a ∈ l := by
  induction l with
  | nil => simp at h
  | cons x xs ih =>
    cases hxs : xs with
    | nil =>
      rw [hxs] at h
      simp only [List.getLast?_singleton, Option.some.injEq] at h
      simp [h]
    | cons y ys =>
      have h' : xs.getLast? = some a := by
        rw [hxs] at h ⊢
        rw [List.getLast?_cons_cons] at h
        exact h
      exact List.mem_cons_of_mem _ (hxs ▸ ih h')

theorem last_is_max {l : List (Addr × Borrower)} {q : Addr × Borrower}
    (hs : sortedKeys l) (h : l.getLast? = some q) : ∀ p ∈ l, p.1 ≤ q.1 := by
  induction l with
  | nil => simp at h
  | cons x xs ih =>
    rcases List.pairwise_cons.mp hs with ⟨hhead, htail⟩
    intro p hp
    cases hxs : xs with
    | nil =>
      rw [hxs] at h
      simp only [List.getLast?_singleton, Option.some.injEq] at h
      rcases List.mem_cons.mp hp with hp | hp
      · rw [hp, h]
      · rw [hxs] at hp; cases hp
    | cons y ys =>
      have h' : xs.getLast? = some q := by
        rw [hxs] at h ⊢
        rw [List.getLast?_cons_cons] at h
        exact h
      rcases List.mem_cons.mp hp with hp | hp
      · have hq : q ∈ xs := mem_of_getLast? h'
        rw [hp]
        exact le_of_lt (hhead q hq)
      · exact ih htail h' p hp

theorem filter_last_drop {r : List (Addr × Borrower)} {n : Nat} {q : Addr × Borrower}
    (hs : sortedKeys r) (hlast : (r.take n).getLast? = some q) :
    r.filter (fun p => q.1 < p.1) = r.drop n := by
  have hsplit : r = r.take n ++ r.drop n := (List.take_append_drop n r).symm
  have hpw : List.Pairwise (fun p pq => p.1 < pq.1) (r.take n ++ r.drop n) := by
    rw [← hsplit]; exact hs
  rcases List.pairwise_append.mp hpw with ⟨hpw1, hpw2, hcross⟩
  have hqmem : q ∈ r.take n := mem_of_getLast? hlast
  have h1 : ∀ p ∈ r.take n, ¬ (q.1 < p.1) :=
    fun p hp => not_lt_of_ge (last_is_max hpw1 hlast p hp)
  have h2 : ∀ p ∈ r.drop n, q.1 < p.1 := fun p hp => hcross q hqmem p hp
  conv_lhs => rw [hsplit]
  rw [List.filter_append]
  rw [List.filter_eq_nil_iff.mpr (by intro p hp; simpa using h1 p hp)]
  rw [List.filter_eq_self.mpr (by intro p hp; simpa using h2 p hp)]
  rfl

theorem getLast?_map {α β : Type} (f : α → β) (l : List α) :
    (l.map f).getLast? = l.getLast?.map f := by
  induction l with
  | nil => rfl
  | cons x xs ih =>
    cases hxs : xs with
    | nil => rfl
    | cons y ys =>
      subst hxs
      simp only [List.map_cons, List.getLast?_cons_cons] at ih ⊢
      exact ih

theorem afterCursor_subset (c : Option Addr) (l : List (Addr × Borrower)) :
    ∀ p ∈ Borrower.afterCursor c l, p ∈ l := by
  cases c with
  | none => intro p hp; exact hp
  | some k => intro p hp; exact (List.mem_filter.mp hp).1

theorem afterCursor_sorted {c : Option Addr} {l : List (Addr × Borrower)}
    (h : sortedKeys l) : sortedKeys (Borrower.afterCursor c l) := by
  cases c with
  | none => exact h
  | some k => exact List.Pairwise.sublist (List.filter_sublist l) h

theorem pagesAux (s : Store) (lim : Nat) (hWF : s.WF) (hlim : 0 < lim) :
    ∀ (fuel : Nat) (c : Option Addr) (r : List (Addr × Borrower)),
      Borrower.afterCursor c s.borrowers = r → r.length ≤ fuel →
      pages s lim c fuel = r.map (fun p => p.2) := by
  intro fuel
  induction fuel with
  | zero =>
    intro c r hr hlen
    have hnil : r = [] := List.eq_nil_of_length_eq_zero (Nat.le_zero.mp hlen)
    rw [hnil]
    rfl
  | succ fuel ih =>
    intro c r hr hlen
    have hpage : Borrower.list s (some lim) c = (r.take lim).map (fun p => p.2) := by
      rw [show Borrower.list s (some lim) c
          = ((Borrower.afterCursor c s.borrowers).take lim).map (fun p => p.2) from rfl, hr]
    have hsr : sortedKeys r := by
      rw [← hr]
      exact afterCursor_sorted hWF.1
    cases hre : r with
    | nil =>
      simp only [pages, hpage, hre, List.take_nil, List.map_nil]
      rfl
    | cons p rtl =>
      have hne : r ≠ [] := by rw [hre]; exact List.cons_ne_nil p rtl
      have htne : r.take lim ≠ [] := by
        have hlen0 : 0 < (r.take lim).length := by
          rw [List.length_take]
          apply lt_min hlim
          rw [hre]
          simp
        exact List.length_pos.mp hlen0
      cases hq : (r.take lim).getLast? with
      | none => exact absurd (List.getLast?_eq_none_iff.mp hq) htne
      | some q₀ =>
        have hqmem : q₀ ∈ r := List.take_subset lim r (mem_of_getLast? hq)
        have haddr : q₀.2.addr = q₀.1 :=
          hWF.2.2 q₀ (afterCursor_subset c s.borrowers q₀ (hr ▸ hqmem))
        have hglast : (Borrower.list s (some lim) c).getLast? = some q₀.2 := by
          rw [hpage, getLast?_map, hq]
          rfl
        have hnext : Borrower.afterCursor (some q₀.1) s.borrowers = r.drop lim := by
          cases c with
          | none =>
            have hrb : s.borrowers = r := hr
            rw [show Borrower.afterCursor (some q₀.1) s.borrowers
                = s.borrowers.filter (fun p => q₀.1 < p.1) from rfl, hrb]
            exact filter_last_drop hsr hq
          | some c₀ =>
            have hrb : s.borrowers.filter (fun p => c₀ < p.1) = r := hr
            have hc₀ : c₀ < q₀.1 := by
              rw [← hrb] at hqmem
              have := List.mem_filter.mp hqmem
              simpa using this.2
            have hff : s.borrowers.filter (fun p => q₀.1 < p.1)
                = r.filter (fun p => q₀.1 < p.1) := by
              rw [← hrb, List.filter_filter]
              apply List.filter_congr
              intro p hp
              by_cases hqp : q₀.1 < p.1
              · have : c₀ < p.1 := lt_trans hc₀ hqp
                simp [hqp, this]
              · simp [hqp]
            rw [show Borrower.afterCursor (some q₀.1) s.borrowers
                = s.borrowers.filter (fun p => q₀.1 < p.1) from rfl, hff]
            exact filter_last_drop hsr hq
        have hlen' : (r.drop lim).length ≤ fuel := by
          rw [List.length_drop]
          have h1 : 1 ≤ r.length := by
            rw [hre]
            simp
          omega
        have hrec := ih (some q₀.1) (r.drop lim) hnext hlen'
        simp only [pages, hglast]
        rw [hpage, haddr, hrec, ← List.map_append, List.take_append_drop]
        rw [hre]

/-! ### C6: listBorrowers -/

/-- C6 counterexample: `bigStore` holds 101 borrowers; a request with page
limit 101 returns 101 items, so requests above 100 are not capped to 100 —
`Borrower::list` truncates to `limit.unwrap_or(100)` with no `min` against
100, contradicting the claimed silent cap `min(requested, 100)`. -/
theorem list_cap_cex :
    bigStore.WF ∧
    (Borrower.list bigStore (some 101) none).length = 101 ∧
    ¬ ((Borrower.list bigStore (some 101) none).length ≤ min 101 100) := by
  refine ⟨by decide, by rfl, by decide⟩

/-- C6 (amended): `listBorrowers` returns borrowers in strictly ascending
identity order, starting strictly after the cursor when one is given; the
page size is at most the requested limit, an absent limit defaulting to 100 —
however requests above 100 are NOT silently capped to 100 (the request is a
`u8`, so up to 255 items can come back); chaining the last returned identity
as the next cursor enumerates the full set with no gaps or duplicates. -/
theorem list_correct (s : Store) (c : Option Addr) (lim : Nat) (limit : Option Nat)
    (hWF : s.WF) (hlim : 0 < lim) :
    (Borrower.list s limit c).Pairwise (fun x y => x.addr < y.addr) ∧
    (Borrower.list s limit c).length ≤ limit.getD 100 ∧
    (∀ p ∈ Borrower.list s limit c, ∀ k, c = some k → k < p.addr) ∧
    pages s lim none s.borrowers.length = s.borrowers.map (fun p => p.2) := by
  have hsub : ∀ p ∈ (Borrower.afterCursor c s.borrowers).take (limit.getD 100),
      p ∈ s.borrowers := by
    intro p hp
    exact afterCursor_subset c s.borrowers p (List.take_subset _ _ hp)
  have hp' : sortedKeys ((Borrower.afterCursor c s.borrowers).take (limit.getD 100)) :=
    List.Pairwise.sublist (List.take_sublist _ _) (afterCursor_sorted hWF.1)
  refine ⟨?_, ?_, ?_, ?_⟩
  · rw [show Borrower.list s limit c
        = ((Borrower.afterCursor c s.borrowers).take (limit.getD 100)).map (fun p => p.2)
        from rfl]
    rw [List.pairwise_map]
    refine List.Pairwise.imp_of_mem ?_ hp'
    intro a b ha hb hab
    rw [hWF.2.2 a (hsub a ha), hWF.2.2 b (hsub b hb)]
    exact hab
  · rw [show Borrower.list s limit c
        = ((Borrower.afterCursor c s.borrowers).take (limit.getD 100)).map (fun p => p.2)
        from rfl]
    rw [List.length_map, List.length_take]
    exact min_le_left _ _
  · intro p hp k hc
    subst hc
    rw [show Borrower.list s limit (some k)
        = ((s.borrowers.filter (fun q => k < q.1)).take (limit.getD 100)).map (fun q => q.2)
        from rfl] at hp
    obtain ⟨q, hq, hqe⟩ := List.mem_map.mp hp
    have hqf : q ∈ s.borrowers.filter (fun q => k < q.1) := List.take_subset _ _ hq
    have hklt : k < q.1 := by
      have hm := (List.mem_filter.mp hqf).2
      simpa using hm
    have haddr : q.2.addr = q.1 := hWF.2.2 q (List.mem_filter.mp hqf).1
    rw [← hqe, haddr]
    exact hklt
  · exact pagesAux s lim hWF hlim s.borrowers.length none s.borrowers rfl le_rfl

theorem list_correct_witness :
    (Borrower.list exStore (some 1) none).Pairwise (fun x y => x.addr < y.addr) ∧
    (Borrower.list exStore (some 1) none).length ≤ (some 1 : Option Nat).getD 100 ∧
    (∀ p ∈ Borrower.list exStore (some 1) none,
      ∀ k, (none : Option Addr) = some k → k < p.addr) ∧
    pages exStore 1 none exStore.borrowers.length
      = exStore.borrowers.map (fun p => p.2) :=
  list_correct exStore none 1 (some 1) (by decide) (by decide)
